import Mathlib

/-
  Verification of the whisper-to-influxdb migration pipeline core
  (src/whisper-to-influxdb.go) via a shallow embedding in Lean 4.

  The embedding covers:
  * the Order Tracker (Go func keepOrder): an in-progress linked list of
    file paths, mutated by record events (foundFiles channel), complete
    events (finishedFiles channel) and exit requests;
  * the extract worker (Go func whisperWorker): per-unit open, full dump
    over all retention archives or bounded range fetch, error policy;
  * the load worker (Go func influxWorker): write retry loop with backoff;
  * discovery (Go func process driven by filepath.Walk): skip-until
    cursor, suffix, exclude and include filtering, emission order.

  Process termination by os.Exit after an exit-channel send is modelled as
  a terminal "fatal code" outcome.  Wall-clock sleeping is modelled by
  counting the slept seconds.  The float64 point values are carried
  opaquely (the pipeline never computes on them), modelled by Int.
-/

namespace WhisperToInflux

/-! ## Order Tracker (Go func keepOrder) -/

/-- The two mutation messages the Order Tracker consumes: a key arriving on
the foundFiles channel (record) and a key arriving on the finishedFiles
channel (complete). -/
inductive Event where
  | record (k : String)
  | complete (k : String)
deriving DecidableEq

/-- Removal of the first matching node from the in-progress linked list:
the Go loop walks the list with a prev pointer, unlinks the first node whose
Path equals the finished key, and breaks. -/
def removeFirst (finished : String) : List String → List String
  | [] => []
  | c :: rest => if c = finished then rest else c :: removeFirst finished rest

/-- One select iteration of keepOrder on a mutation message: a record
appends the key to the tail of the list, a complete removes the first
occurrence of the key. -/
def step (s : List String) : Event → List String
  | Event.record k => s ++ [k]
  | Event.complete k => removeFirst k s

/-- The in-progress list after keepOrder has consumed a trace of messages,
starting from the empty list. -/
def run (t : List Event) : List String := t.foldl step []

/-- The keys recorded by a trace, in record (discovery) order. -/
def recorded (t : List Event) : List String :=
  t.filterMap fun e => match e with
    | Event.record k => some k
    | Event.complete _ => none

/-- The keys whose completion the trace reports, in arrival order. -/
def completed (t : List Event) : List String :=
  t.filterMap fun e => match e with
    | Event.complete k => some k
    | Event.record _ => none

/-- Discovery-consistent traces, processed with the given keys already
recorded: every record is of a fresh key (the filesystem walk emits each
path at most once) and every complete is of a previously recorded key. -/
def validFrom (rec : List String) : List Event → Bool
  | [] => true
  | Event.record k :: t => !(decide (k ∈ rec)) && validFrom (rec ++ [k]) t
  | Event.complete k :: t => decide (k ∈ rec) && validFrom rec t

/-- Discovery-consistent traces, from the empty initial state. -/
def valid (t : List Event) : Bool := validFrom [] t

/-- The literal side condition named by the invariant claims, processed
with the given keys already recorded: every complete is of a previously
recorded key (records of already seen keys are not excluded). -/
def carFrom (rec : List String) : List Event → Bool
  | [] => true
  | Event.record k :: t => carFrom (rec ++ [k]) t
  | Event.complete k :: t => decide (k ∈ rec) && carFrom rec t

/-- A key is completed only after it has been recorded. -/
def completeAfterRecord (t : List Event) : Bool := carFrom [] t

theorem removeFirst_of_not_mem (k : String) :
    ∀ l : List String, k ∉ l → removeFirst k l = l := by
  intro l
  induction l with
  | nil => intro _; rfl
  | cons c rest ih =>
    intro h
    have hck : ¬ (c = k) := fun hc => h (hc ▸ List.mem_cons_self c rest)
    simp only [removeFirst, if_neg hck]
    rw [ih (fun hm => h (List.mem_cons_of_mem c hm))]

theorem removeFirst_eq_filter (k : String) :
    ∀ l : List String, l.Nodup → removeFirst k l = l.filter (fun x => decide (x ≠ k)) := by
  intro l
  induction l with
  | nil => intro _; rfl
  | cons c rest ih =>
    intro hnd
    rcases List.nodup_cons.mp hnd with ⟨hc, hrest⟩
    by_cases hck : c = k
    · have h1 : List.filter (fun x => decide (x ≠ k)) (c :: rest)
          = List.filter (fun x => decide (x ≠ k)) rest := by
        simp [List.filter_cons, hck]
      simp only [removeFirst, if_pos hck, h1]
      refine (List.filter_eq_self.mpr ?_).symm
      intro a ha
      simp only [decide_eq_true_eq]
      exact fun hak => hc (by rw [hck, ← hak]; exact ha)
    · have h1 : List.filter (fun x => decide (x ≠ k)) (c :: rest)
          = c :: List.filter (fun x => decide (x ≠ k)) rest := by
        simp [List.filter_cons, hck]
      simp only [removeFirst, if_neg hck, h1]
      rw [ih hrest]

/-- Master invariant of keepOrder, in accumulator form: starting from a
state holding the not-yet-completed among previously recorded keys, a
discovery-consistent trace leaves the state equal to the full record-order
list filtered by non-completion. -/
theorem run_aux (t : List Event) :
    ∀ (rec comp : List String), rec.Nodup → (∀ x ∈ comp, x ∈ rec) →
    validFrom rec t = true →
    List.foldl step (rec.filter (fun k => decide (k ∉ comp))) t
      = (rec ++ recorded t).filter (fun k => decide (k ∉ comp ++ completed t)) := by
  induction t with
  | nil =>
    intro rec comp _ _ _
    simp [recorded, completed]
  | cons e t ih =>
    intro rec comp hnd hsub hv
    cases e with
    | record k =>
      simp only [validFrom, Bool.and_eq_true, Bool.not_eq_true', decide_eq_false_iff_not] at hv
      obtain ⟨hk, hv⟩ := hv
      have hkc : k ∉ comp := fun hc => hk (hsub k hc)
      have h1 : List.foldl step (rec.filter (fun x => decide (x ∉ comp))) (Event.record k :: t)
          = List.foldl step ((rec ++ [k]).filter (fun x => decide (x ∉ comp))) t := by
        simp only [List.foldl_cons, step, List.filter_append, List.filter_cons,
          List.filter_nil]
        rw [if_pos (by simpa using hkc)]
      rw [h1]
      have hnd2 : (rec ++ [k]).Nodup := by
        simp [List.nodup_append, hnd, hk]
      have hsub2 : ∀ x ∈ comp, x ∈ rec ++ [k] := fun x hx =>
        List.mem_append_left _ (hsub x hx)
      rw [ih (rec ++ [k]) comp hnd2 hsub2 hv]
      have hrec : recorded (Event.record k :: t) = k :: recorded t := by
        simp [recorded]
      have hcomp : completed (Event.record k :: t) = completed t := by
        simp [completed]
      rw [hrec, hcomp, List.append_assoc]
      rfl
    | complete k =>
      simp only [validFrom, Bool.and_eq_true, decide_eq_true_eq] at hv
      obtain ⟨hk, hv⟩ := hv
      have h1 : List.foldl step (rec.filter (fun x => decide (x ∉ comp))) (Event.complete k :: t)
          = List.foldl step (rec.filter (fun x => decide (x ∉ comp ++ [k]))) t := by
        simp only [List.foldl_cons, step]
        rw [removeFirst_eq_filter k _ (hnd.filter _), List.filter_filter]
        congr 1
        apply List.filter_congr
        intro a _
        by_cases h1 : a ∈ comp <;> by_cases h2 : a = k <;>
          simp [h1, h2, List.mem_append]
      rw [h1]
      have hsub2 : ∀ x ∈ comp ++ [k], x ∈ rec := by
        intro x hx
        rcases List.mem_append.mp hx with h | h
        · exact hsub x h
        · rw [List.mem_singleton.mp h]; exact hk
      rw [ih rec (comp ++ [k]) hnd hsub2 hv]
      have hrec : recorded (Event.complete k :: t) = recorded t := by
        simp [recorded]
      have hcomp : completed (Event.complete k :: t) = k :: completed t := by
        simp [completed]
      rw [hrec, hcomp, List.append_assoc]
      rfl

/-- Master invariant of keepOrder: after a discovery-consistent trace, the
in-progress list is exactly the record-order list of keys filtered by
non-completion. -/
theorem run_eq_filter (t : List Event) (h : valid t = true) :
    run t = (recorded t).filter (fun k => decide (k ∉ completed t)) := by
  have h0 := run_aux t [] [] List.nodup_nil (by simp) h
  simpa [run] using h0

theorem recorded_nodup_aux (t : List Event) :
    ∀ rec : List String, rec.Nodup → validFrom rec t = true →
    (rec ++ recorded t).Nodup := by
  induction t with
  | nil => intro rec hnd _; simpa [recorded] using hnd
  | cons e t ih =>
    intro rec hnd hv
    cases e with
    | record k =>
      simp only [validFrom, Bool.and_eq_true, Bool.not_eq_true', decide_eq_false_iff_not] at hv
      obtain ⟨hk, hv⟩ := hv
      have hnd2 : (rec ++ [k]).Nodup := by simp [List.nodup_append, hnd, hk]
      have := ih (rec ++ [k]) hnd2 hv
      have hrec : recorded (Event.record k :: t) = k :: recorded t := by simp [recorded]
      rw [hrec]
      simpa [List.append_assoc] using this
    | complete k =>
      simp only [validFrom, Bool.and_eq_true, decide_eq_true_eq] at hv
      have hrec : recorded (Event.complete k :: t) = recorded t := by simp [recorded]
      rw [hrec]
      exact ih rec hnd hv.2

/-- The record-order key list of a discovery-consistent trace has no
duplicates. -/
theorem recorded_nodup (t : List Event) (h : valid t = true) : (recorded t).Nodup := by
  simpa using recorded_nodup_aux t [] List.nodup_nil h

/-- The in-progress list is a sublist of the record-order key list. -/
theorem run_sublist (t : List Event) (h : valid t = true) :
    List.Sublist (run t) (recorded t) := by
  rw [run_eq_filter t h]
  exact List.filter_sublist _

theorem run_nodup (t : List Event) (h : valid t = true) : (run t).Nodup :=
  (recorded_nodup t h).sublist (run_sublist t h)

/-- Membership in the in-progress list is exactly recorded-and-not-completed. -/
theorem mem_run_iff (t : List Event) (h : valid t = true) (k : String) :
    k ∈ run t ↔ (k ∈ recorded t ∧ k ∉ completed t) := by
  rw [run_eq_filter t h]
  simp [List.mem_filter]

/-! ### Positional order within a list -/

/-- Key a occurs at a strictly earlier position than key b in the list l. -/
def before (l : List String) (a b : String) : Prop :=
  ∃ i j : Nat, i < j ∧ l[i]? = some a ∧ l[j]? = some b

theorem before_cons {l : List String} {a b : String} (x : String)
    (h : before l a b) : before (x :: l) a b := by
  obtain ⟨i, j, hij, ha, hb⟩ := h
  exact ⟨i + 1, j + 1, by omega, by simpa using ha, by simpa using hb⟩

theorem mem_of_getElem?_eq (l : List String) (i : Nat) (a : String)
    (h : l[i]? = some a) : a ∈ l := by
  obtain ⟨hlt, he⟩ := List.getElem?_eq_some.mp h
  exact he ▸ List.getElem_mem hlt

theorem before_head {l : List String} {b : String} (x : String) (h : b ∈ l) :
    before (x :: l) x b := by
  obtain ⟨i, hi⟩ := List.mem_iff_getElem?.mp h
  exact ⟨0, i + 1, Nat.succ_pos i, by simp, by simpa using hi⟩

theorem pairwise_before (l : List String) : l.Pairwise (before l) := by
  induction l with
  | nil => exact List.Pairwise.nil
  | cons x l ih =>
    refine List.Pairwise.cons ?_ (ih.imp ?_)
    · intro b hb
      exact before_head x hb
    · intro a b hab
      exact before_cons x hab

theorem before_of_pairwise {R : String → String → Prop} {l : List String}
    (hp : l.Pairwise R) {a b : String} (h : before l a b) : R a b := by
  obtain ⟨i, j, hij, ha, hb⟩ := h
  obtain ⟨hi, hia⟩ := List.getElem?_eq_some.mp ha
  obtain ⟨hj, hjb⟩ := List.getElem?_eq_some.mp hb
  have := List.pairwise_iff_getElem.mp hp i j hi hj hij
  rwa [hia, hjb] at this

theorem before_total {l : List String} {a b : String}
    (ha : a ∈ l) (hb : b ∈ l) (hne : a ≠ b) : before l a b ∨ before l b a := by
  obtain ⟨i, hi⟩ := List.mem_iff_getElem?.mp ha
  obtain ⟨j, hj⟩ := List.mem_iff_getElem?.mp hb
  have hij : i ≠ j := by
    intro h
    rw [h, hj] at hi
    exact hne (Option.some.inj hi).symm
  rcases Nat.lt_or_ge i j with h | h
  · exact Or.inl ⟨i, j, h, hi, hj⟩
  · exact Or.inr ⟨j, i, by omega, hj, hi⟩

theorem getElem?_inj_of_nodup {l : List String} (hnd : l.Nodup) {i j : Nat} {a : String}
    (hi : l[i]? = some a) (hj : l[j]? = some a) : i = j := by
  obtain ⟨hlt, _⟩ := List.getElem?_eq_some.mp hi
  exact List.getElem?_inj hlt hnd (hi.trans hj.symm)

theorem before_ne {l : List String} (hnd : l.Nodup) {a b : String}
    (h : before l a b) : a ≠ b := by
  obtain ⟨i, j, hij, ha, hb⟩ := h
  intro he
  rw [← he] at hb
  exact absurd (getElem?_inj_of_nodup hnd ha hb) (by omega)

theorem before_antisymm {l : List String} (hnd : l.Nodup) {a b : String}
    (h1 : before l a b) (h2 : before l b a) : False := by
  obtain ⟨i, j, hij, hia, hjb⟩ := h1
  obtain ⟨p, q, hpq, hpb, hqa⟩ := h2
  have e1 : i = q := getElem?_inj_of_nodup hnd hia hqa
  have e2 : j = p := getElem?_inj_of_nodup hnd hjb hpb
  omega

/-- Positional order transfers from a duplicate-free list to any of its
sublists. -/
theorem before_sublist {l s : List String} (hnd : l.Nodup)
    (hs : List.Sublist s l) {a b : String}
    (hab : before l a b) (ha : a ∈ s) (hb : b ∈ s) : before s a b := by
  have hp : s.Pairwise (before l) := List.Pairwise.sublist hs (pairwise_before l)
  have hne : a ≠ b := before_ne hnd hab
  rcases before_total ha hb hne with h | h
  · exact h
  · exact absurd (before_of_pairwise hp h) (fun hba => before_antisymm hnd hab hba)

/-! ### Claim theorems about the Order Tracker -/

/-- Claim C1, counterexample: the trace that records key a twice and then
completes it once satisfies the claim's stated side condition (a key is
completed only after it has been recorded), yet afterwards key a is still a
member of the In-Progress Sequence while the set of recorded keys minus the
set of completed keys is empty, so membership differs from that set
difference. -/
theorem keepOrder_membership_cex :
    completeAfterRecord
        [Event.record "a", Event.record "a", Event.complete "a"] = true ∧
    ¬ (∀ k, k ∈ run [Event.record "a", Event.record "a", Event.complete "a"] ↔
        (k ∈ recorded [Event.record "a", Event.record "a", Event.complete "a"] ∧
         k ∉ completed [Event.record "a", Event.record "a", Event.complete "a"])) := by
  constructor
  · decide
  · intro hall
    have h1 : "a" ∈ run [Event.record "a", Event.record "a", Event.complete "a"] := by
      decide
    have h2 := (hall "a").mp h1
    exact h2.2 (by decide)

/-- Claim C1, amended: for every interleaving of record and complete
operations in which a key is completed only after it has been recorded and
no key is recorded twice (as guaranteed by the filesystem walk), at every
instant the In-Progress Sequence's membership equals the set of recorded
keys minus the set of completed keys, and its members appear sorted by
record order: if key a was recorded before key b and both are still
members, a appears before b regardless of completion order. -/
theorem keepOrder_invariant (t : List Event) (h : valid t = true) :
    (∀ k, k ∈ run t ↔ (k ∈ recorded t ∧ k ∉ completed t)) ∧
    (∀ a b, before (recorded t) a b → a ∈ run t → b ∈ run t → before (run t) a b) := by
  constructor
  · exact mem_run_iff t h
  · intro a b hab ha hb
    exact before_sublist (recorded_nodup t h) (run_sublist t h) hab ha hb

/-- Witness for keepOrder invariant: concrete trace record a, record b,
record c, complete b; membership and order checked for keys a and c. -/
theorem keepOrder_invariant_witness :
    ("c" ∈ run [Event.record "a", Event.record "b", Event.record "c", Event.complete "b"] ↔
      ("c" ∈ recorded [Event.record "a", Event.record "b", Event.record "c", Event.complete "b"] ∧
       "c" ∉ completed [Event.record "a", Event.record "b", Event.record "c", Event.complete "b"])) ∧
    before (run [Event.record "a", Event.record "b", Event.record "c", Event.complete "b"]) "a" "c" := by
  have h := keepOrder_invariant
    [Event.record "a", Event.record "b", Event.record "c", Event.complete "b"] (by decide)
  refine ⟨h.1 "c", h.2 "a" "c" ⟨0, 2, by omega, by decide, by decide⟩ (by decide) (by decide)⟩

/-- Claim C2: for every discovery-consistent interleaving, whenever the head
of the In-Progress Sequence is key K, every key recorded before K has
already been completed, so the head is a safe resume point. -/
theorem keepOrder_resume_safety (t : List Event) (h : valid t = true) (K a : String)
    (hhead : (run t).head? = some K) (hbefore : before (recorded t) a K) :
    a ∈ completed t := by
  by_contra hac
  obtain ⟨i, j, hij, hia, hjK⟩ := hbefore
  have haR : a ∈ recorded t := mem_of_getElem?_eq _ i a hia
  have haRun : a ∈ run t := (mem_run_iff t h a).mpr ⟨haR, hac⟩
  have hKRun : K ∈ run t := by
    cases hr : run t with
    | nil => rw [hr] at hhead; exact absurd hhead (by simp)
    | cons x xs =>
      rw [hr] at hhead
      simp only [List.head?_cons, Option.some.injEq] at hhead
      rw [hhead]
      exact List.mem_cons_self K xs
  have hbr : before (run t) a K :=
    before_sublist (recorded_nodup t h) (run_sublist t h) ⟨i, j, hij, hia, hjK⟩ haRun hKRun
  obtain ⟨p, q, hpq, hpa, hqK⟩ := hbr
  have h0 : (run t)[0]? = some K := by
    cases hr : run t with
    | nil => rw [hr] at hhead; exact absurd hhead (by simp)
    | cons x xs =>
      rw [hr] at hhead
      simp only [List.head?_cons, Option.some.injEq] at hhead
      simp [hhead]
  have := getElem?_inj_of_nodup (run_nodup t h) hqK h0
  omega

/-- Witness for resume safety: after record a, record b, complete a the head
is b, and the key a recorded before b has indeed been completed. -/
theorem keepOrder_resume_safety_witness :
    "a" ∈ completed [Event.record "a", Event.record "b", Event.complete "a"] :=
  keepOrder_resume_safety [Event.record "a", Event.record "b", Event.complete "a"]
    (by decide) "b" "a" (by decide) ⟨0, 1, by omega, by decide, by decide⟩

theorem removeFirst_append_cons (k : String) :
    ∀ (l1 l2 : List String), k ∉ l1 → removeFirst k (l1 ++ k :: l2) = l1 ++ l2 := by
  intro l1
  induction l1 with
  | nil => intro l2 _; simp [removeFirst]
  | cons c rest ih =>
    intro l2 h
    have hck : ¬ (c = k) := fun hc => h (hc ▸ List.mem_cons_self c rest)
    simp only [List.cons_append, removeFirst, if_neg hck]
    exact congrArg (c :: ·) (ih l2 (fun hm => h (List.mem_cons_of_mem c hm)))

/-- Claim C10: processing a completion for a key that is not currently a
member leaves the In-Progress Sequence unchanged, and processing a
completion for a member removes exactly the first occurrence of that key
while preserving the relative order of all other members. -/
theorem complete_frame (k : String) (l : List String) :
    (k ∉ l → step l (Event.complete k) = l) ∧
    (∀ l1 l2, l = l1 ++ k :: l2 → k ∉ l1 → step l (Event.complete k) = l1 ++ l2) := by
  constructor
  · intro h
    simpa [step] using removeFirst_of_not_mem k l h
  · intro l1 l2 hdec h1
    subst hdec
    simpa [step] using removeFirst_append_cons k l1 l2 h1

/-- Witness for the completion frame property: completing a missing key is a
no-op, and completing key a in the list b, a, c, a removes only the first a. -/
theorem complete_frame_witness :
    step ["b", "c"] (Event.complete "a") = ["b", "c"] ∧
    step ["b", "a", "c", "a"] (Event.complete "a") = ["b", "c", "a"] := by
  refine ⟨(complete_frame "a" ["b", "c"]).1 (by decide), ?_⟩
  exact (complete_frame "a" ["b", "a", "c", "a"]).2 ["b"] ["c", "a"] rfl (by decide)

/-! ## Extract worker (Go func whisperWorker) -/

/-- One whisper data point: a uint32 Unix timestamp (0 is the sentinel for
an empty slot with no data) and a float64 value.  The value is carried
opaquely through the pipeline and never computed on; it is modelled by Int. -/
structure Point where
  Timestamp : Nat
  Value : Int
deriving DecidableEq

/-- One retention archive of a whisper file, as consumed by the worker: the
raw slot contents that DumpArchive returns (still holding zero-timestamp
sentinel slots) and whether the DumpArchive call succeeds. -/
structure Archive where
  slots : List Point
  readOk : Bool
deriving DecidableEq

/-- A work unit as the extract worker observes it: its path, whether the
two-stage open (os.Open then whisper.OpenWhisper) succeeds, its archives in
header order (index 0 is the highest-resolution, i.e. finest, archive), and
whether the bounded-range FetchUntil call succeeds. -/
structure SourceUnit where
  path : String
  openOk : Bool
  archives : List Archive
  fetchOk : Bool
deriving DecidableEq

/-- The fate of one work unit inside the extract worker: skipped via
continue (no batch is ever emitted and no completion is ever reported),
process-wide exit requested with a status code, or a point batch emitted on
the influxSeries channel. -/
inductive Outcome where
  | abandoned
  | fatal (code : Nat)
  | forwarded (points : List Point)
deriving DecidableEq

/-- The full-dump loop over archives in the order processed (the Go loop
walks the archive index from len-1 down to 0, so this is called with the
archive list reversed).  Each successful dump is appended after the points
gathered so far with the zero-timestamp sentinel slots filtered out; a
failed dump skips that archive when skipWhisperErrors is set and otherwise
requests process exit (modelled as the terminal none). -/
def dumpAll (skipErr : Bool) : List Archive → Option (List Point)
  | [] => some []
  | a :: rest =>
    if a.readOk then
      (dumpAll skipErr rest).map
        (fun pts => a.slots.filter (fun p => decide (p.Timestamp ≠ 0)) ++ pts)
    else if skipErr then dumpAll skipErr rest
    else none

/-- Modelled from the spec: the external whisper collaborator's bounded
range read (whisper.FetchUntil), whose implementation is outside this
repository.  Per the spec it reads the best (finest) archive for the range
and returns the points between the bounds with the empty no-data slots
implicitly absent, not zero-filled. -/
def fetchUntil (u : SourceUnit) (fromT untilT : Nat) : List Point :=
  (u.archives.headD { slots := [], readOk := true }).slots.filter
    (fun p => decide (p.Timestamp ≠ 0) && decide (fromT ≤ p.Timestamp) &&
      decide (p.Timestamp ≤ untilT))

/-- The body of whisperWorker for one work unit.  A failed open abandons
the unit (continue) under skipWhisperErrors and otherwise requests exit 2.
With the all flag, the archives are dumped from coarsest to finest and the
unit is forwarded; without it, a successful FetchUntil forwards the fetched
points while a failed one abandons the unit under skipWhisperErrors and
otherwise requests exit 2.  A send on the exit channel makes keepOrder call
os.Exit, so an exit request is modelled as a terminal fatal outcome. -/
def whisperWorkerUnit (allMode skipWhisperErrors : Bool) (fromT untilT : Nat)
    (u : SourceUnit) : Outcome :=
  if !u.openOk then
    if skipWhisperErrors then Outcome.abandoned else Outcome.fatal 2
  else if allMode then
    match dumpAll skipWhisperErrors u.archives.reverse with
    | some pts => Outcome.forwarded pts
    | none => Outcome.fatal 2
  else
    if u.fetchOk then Outcome.forwarded (fetchUntil u fromT untilT)
    else if skipWhisperErrors then Outcome.abandoned else Outcome.fatal 2

/-- Sentinel filter applied to one archive's dump. -/
def dumpFiltered (a : Archive) : List Point :=
  a.slots.filter (fun p => decide (p.Timestamp ≠ 0))

theorem dumpAll_all_ok (skipErr : Bool) :
    ∀ m : List Archive, (∀ a ∈ m, a.readOk = true) →
    dumpAll skipErr m = some ((m.map dumpFiltered).flatten) := by
  intro m
  induction m with
  | nil => intro _; simp [dumpAll]
  | cons a rest ih =>
    intro h
    have ha : a.readOk = true := h a (List.mem_cons_self a rest)
    have hrest := ih (fun b hb => h b (List.mem_cons_of_mem a hb))
    simp [dumpAll, ha, hrest, dumpFiltered]

theorem dumpAll_skip (m : List Archive) :
    dumpAll true m = some (((m.filter (fun a => a.readOk)).map dumpFiltered).flatten) := by
  induction m with
  | nil => simp [dumpAll]
  | cons a rest ih =>
    cases ha : a.readOk with
    | true => simp [dumpAll, ha, ih, List.filter_cons, dumpFiltered]
    | false => simp [dumpAll, ha, ih, List.filter_cons]

theorem dumpAll_strict_none_iff (m : List Archive) :
    dumpAll false m = none ↔ ∃ a ∈ m, a.readOk = false := by
  induction m with
  | nil => simp [dumpAll]
  | cons a rest ih =>
    cases ha : a.readOk with
    | true =>
      have hstep : dumpAll false (a :: rest) = none ↔ dumpAll false rest = none := by
        simp [dumpAll, ha]
      rw [hstep, ih]
      constructor
      · rintro ⟨b, hb, hf⟩
        exact ⟨b, List.mem_cons_of_mem a hb, hf⟩
      · rintro ⟨b, hb, hf⟩
        rcases List.mem_cons.mp hb with h | h
        · rw [h, ha] at hf
          exact absurd hf (by simp)
        · exact ⟨b, h, hf⟩
    | false =>
      have hstep : dumpAll false (a :: rest) = none := by simp [dumpAll, ha]
      rw [hstep]
      exact ⟨fun _ => ⟨a, List.mem_cons_self a rest, ha⟩, fun _ => rfl⟩

/-- Every point surviving dumpAll has a nonzero timestamp. -/
theorem dumpAll_no_sentinel (skipErr : Bool) :
    ∀ (m : List Archive) (pts : List Point), dumpAll skipErr m = some pts →
    ∀ p ∈ pts, p.Timestamp ≠ 0 := by
  intro m
  induction m with
  | nil =>
    intro pts h p hp
    have hpts : ([] : List Point) = pts := Option.some.inj h
    rw [← hpts] at hp
    exact absurd hp (List.not_mem_nil p)
  | cons a rest ih =>
    intro pts h p hp
    cases ha : a.readOk with
    | true =>
      rw [show dumpAll skipErr (a :: rest)
          = (dumpAll skipErr rest).map (fun pts => dumpFiltered a ++ pts) by
        simp [dumpAll, ha, dumpFiltered]] at h
      cases hr : dumpAll skipErr rest with
      | none =>
        rw [hr] at h
        exact absurd h (by simp)
      | some pts0 =>
        rw [hr] at h
        have hsome : dumpFiltered a ++ pts0 = pts := by simpa using h
        rw [← hsome] at hp
        rcases List.mem_append.mp hp with hmem | hmem
        · have := List.mem_filter.mp hmem
          simpa using this.2
        · exact ih pts0 hr p hmem
    | false =>
      cases hse : skipErr with
      | false =>
        rw [hse] at h
        rw [show dumpAll false (a :: rest) = none by simp [dumpAll, ha]] at h
        exact absurd h (by simp)
      | true =>
        rw [hse] at h
        rw [show dumpAll true (a :: rest) = dumpAll true rest by simp [dumpAll, ha]] at h
        rw [hse] at ih
        exact ih pts h p hp

/-- A single-position split of a mapped flatten: the block of the element
at position q is a contiguous segment of the flatten. -/
theorem flatten_split_one {α β : Type} (g : α → List β) :
    ∀ (m : List α) (q : Nat) (hq : q < m.length),
    ∃ l2 l3, (m.map g).flatten = l2 ++ g m[q] ++ l3 := by
  intro m
  induction m with
  | nil => intro q hq; exact absurd hq (by simp)
  | cons x rest ih =>
    intro q hq
    cases q with
    | zero => exact ⟨[], (rest.map g).flatten, by simp⟩
    | succ q0 =>
      obtain ⟨l2, l3, hl⟩ := ih q0 (by simpa using hq)
      refine ⟨g x ++ l2, l3, ?_⟩
      simp only [List.map_cons, List.flatten_cons, List.getElem_cons_succ, hl]
      simp [List.append_assoc]

/-- A two-position split of a mapped flatten: for positions p < q, the
block of the element at p occurs as a contiguous segment strictly before
the block of the element at q. -/
theorem flatten_split_two {α β : Type} (g : α → List β) :
    ∀ (m : List α) (p q : Nat), p < q →
    ∀ (hp : p < m.length) (hq : q < m.length),
    ∃ l1 l2 l3, (m.map g).flatten = l1 ++ g m[p] ++ l2 ++ g m[q] ++ l3 := by
  intro m
  induction m with
  | nil => intro p q _ _ hq; exact absurd hq (by simp)
  | cons x rest ih =>
    intro p q hpq hp hq
    cases p with
    | zero =>
      cases q with
      | zero => exact absurd hpq (by omega)
      | succ q0 =>
        obtain ⟨l2, l3, hl⟩ := flatten_split_one g rest q0 (by simpa using hq)
        refine ⟨[], l2, l3, ?_⟩
        simp only [List.map_cons, List.flatten_cons, List.getElem_cons_zero,
          List.getElem_cons_succ, hl]
        simp [List.append_assoc]
    | succ p0 =>
      cases q with
      | zero => exact absurd hpq (by omega)
      | succ q0 =>
        obtain ⟨l1, l2, l3, hl⟩ := ih p0 q0 (by omega) (by simpa using hp)
          (by simpa using hq)
        refine ⟨g x ++ l1, l2, l3, ?_⟩
        simp only [List.map_cons, List.flatten_cons, List.getElem_cons_succ, hl]
        simp [List.append_assoc]

/-- Claim C3: in full-dump mode, for every successfully read work unit the
produced point sequence is the concatenation of the per-archive sentinel-
filtered dumps ordered from the coarsest (last archive index) to the finest
(archive index 0) resolution; consequently, for any finer archive i and
coarser archive j with i < j, the block of archive j occurs strictly before
the block of archive i in the produced sequence, so a finer-resolution
point for a shared timestamp occurs later and wins on load. -/
theorem fullDump_order (skipErr : Bool) (fromT untilT : Nat) (u : SourceUnit)
    (hopen : u.openOk = true) (hread : ∀ a ∈ u.archives, a.readOk = true) :
    whisperWorkerUnit true skipErr fromT untilT u
      = Outcome.forwarded ((u.archives.reverse.map dumpFiltered).flatten) ∧
    (∀ i j : Nat, i < j →
      ∀ (hi : i < u.archives.length) (hj : j < u.archives.length),
      ∃ l1 l2 l3, (u.archives.reverse.map dumpFiltered).flatten
        = l1 ++ dumpFiltered u.archives[j] ++ l2
            ++ dumpFiltered u.archives[i] ++ l3) := by
  constructor
  · have hrev : ∀ a ∈ u.archives.reverse, a.readOk = true := by
      intro a ha
      exact hread a (List.mem_reverse.mp ha)
    simp [whisperWorkerUnit, hopen, dumpAll_all_ok skipErr u.archives.reverse hrev]
  · intro i j hij hi hj
    have hp1 : u.archives.length - 1 - j < u.archives.reverse.length := by
      simp only [List.length_reverse]
      omega
    have hq1 : u.archives.length - 1 - i < u.archives.reverse.length := by
      simp only [List.length_reverse]
      omega
    obtain ⟨l1, l2, l3, hl⟩ := flatten_split_two dumpFiltered u.archives.reverse
      (u.archives.length - 1 - j) (u.archives.length - 1 - i) (by omega) hp1 hq1
    refine ⟨l1, l2, l3, ?_⟩
    rw [hl]
    have e1 : u.archives.reverse[u.archives.length - 1 - j]
        = u.archives[j] := by
      rw [List.getElem_reverse]
      congr 1
      omega
    have e2 : u.archives.reverse[u.archives.length - 1 - i]
        = u.archives[i] := by
      rw [List.getElem_reverse]
      congr 1
      omega
    rw [e1, e2]

/-- Concrete work unit for the full-dump witness: archive 0 (finest) has a
point at timestamp 10 and a sentinel slot, archive 1 (coarsest) has a point
at the same timestamp 10. -/
def exUnitC3 : SourceUnit :=
  { path := "/w/a.wsp", openOk := true,
    archives :=
      [{ slots := [{ Timestamp := 10, Value := 5 }, { Timestamp := 0, Value := 0 }],
         readOk := true },
       { slots := [{ Timestamp := 10, Value := 3 }], readOk := true }],
    fetchOk := true }

/-- Witness for the full-dump order: on exUnitC3 the produced sequence lists
the coarse point first and the fine point for the same timestamp later, and
the sentinel slot is gone. -/
theorem fullDump_order_witness :
    whisperWorkerUnit true false 0 0 exUnitC3
      = Outcome.forwarded [{ Timestamp := 10, Value := 3 }, { Timestamp := 10, Value := 5 }] ∧
    (∃ l1 l2 l3, ([{ Timestamp := 10, Value := 3 }, { Timestamp := 10, Value := 5 }] : List Point)
      = l1 ++ [{ Timestamp := 10, Value := 3 }] ++ l2 ++ [{ Timestamp := 10, Value := 5 }] ++ l3) := by
  have h := fullDump_order false 0 0 exUnitC3 rfl (by decide)
  constructor
  · rw [h.1]
    decide
  · obtain ⟨l1, l2, l3, hl⟩ := h.2 0 1 (by omega) (by simp [exUnitC3]) (by simp [exUnitC3])
    refine ⟨l1, l2, l3, ?_⟩
    have e : (exUnitC3.archives.reverse.map dumpFiltered).flatten
        = [{ Timestamp := 10, Value := 3 }, { Timestamp := 10, Value := 5 }] := by decide
    have e1 : dumpFiltered (exUnitC3.archives[1]) = [{ Timestamp := 10, Value := 3 }] := by decide
    have e0 : dumpFiltered (exUnitC3.archives[0]) = [{ Timestamp := 10, Value := 5 }] := by decide
    rw [← e, hl, e1, e0]

/-- Claim C4: every point batch the extract worker hands to the load pool
is free of zero-timestamp (no data) sentinel points, in both full-dump and
bounded-range mode. -/
theorem forwarded_no_sentinel (allMode skipErr : Bool) (fromT untilT : Nat)
    (u : SourceUnit) (pts : List Point)
    (h : whisperWorkerUnit allMode skipErr fromT untilT u = Outcome.forwarded pts) :
    ∀ p ∈ pts, p.Timestamp ≠ 0 := by
  intro p hp
  unfold whisperWorkerUnit at h
  cases hopen : u.openOk with
  | false =>
    rw [hopen] at h
    cases hse : skipErr with
    | false => rw [hse] at h; exact absurd h (by simp)
    | true => rw [hse] at h; exact absurd h (by simp)
  | true =>
    rw [hopen] at h
    simp only [Bool.not_true, Bool.false_eq_true, if_false] at h
    cases hall : allMode with
    | true =>
      rw [hall] at h
      simp only [if_true] at h
      cases hd : dumpAll skipErr u.archives.reverse with
      | none => rw [hd] at h; exact absurd h (by simp)
      | some pts0 =>
        rw [hd] at h
        simp only [Option.some.injEq] at h
        have hpts : pts0 = pts := by
          have := h
          injection this
        rw [← hpts] at hp
        exact dumpAll_no_sentinel skipErr u.archives.reverse pts0 hd p hp
    | false =>
      rw [hall] at h
      simp only [Bool.false_eq_true, if_false] at h
      cases hf : u.fetchOk with
      | true =>
        rw [hf] at h
        simp only [if_true] at h
        have hpts : fetchUntil u fromT untilT = pts := by
          injection h
        rw [← hpts] at hp
        have := List.mem_filter.mp hp
        have h2 := this.2
        simp only [Bool.and_eq_true, decide_eq_true_eq] at h2
        exact h2.1.1
      | false =>
        rw [hf] at h
        cases hse : skipErr with
        | false => rw [hse] at h; exact absurd h (by simp)
        | true => rw [hse] at h; exact absurd h (by simp)

/-- Witness for the sentinel-free batch property, on the full-dump unit
exUnitC3 whose finest archive holds a sentinel slot. -/
theorem forwarded_no_sentinel_witness :
    ({ Timestamp := 10, Value := 3 } : Point).Timestamp ≠ 0 :=
  forwarded_no_sentinel true false 0 0 exUnitC3
    [{ Timestamp := 10, Value := 3 }, { Timestamp := 10, Value := 5 }] (by decide)
    { Timestamp := 10, Value := 3 } (by decide)

/-- Concrete work unit refuting the literal reading of the read-failure
claim: its coarsest archive (index 1) fails to dump while the finest
succeeds. -/
def exUnitC6 : SourceUnit :=
  { path := "/w/c.wsp", openOk := true,
    archives :=
      [{ slots := [{ Timestamp := 7, Value := 1 }], readOk := true },
       { slots := [{ Timestamp := 9, Value := 2 }], readOk := false }],
    fetchOk := true }

/-- Claim C6, counterexample: in full-dump mode with read-failure-skipping
enabled, a work unit whose archive dump fails is not abandoned: the Go
continue statement only skips that archive of the inner loop, and the unit
is still forwarded to the load pool (with the failed archive's points
missing), after which its completion is reported as usual. -/
theorem read_failure_cex :
    (∃ a ∈ exUnitC6.archives, a.readOk = false) ∧
    whisperWorkerUnit true true 0 0 exUnitC6
      = Outcome.forwarded [{ Timestamp := 7, Value := 1 }] ∧
    whisperWorkerUnit true true 0 0 exUnitC6 ≠ Outcome.abandoned := by
  refine ⟨⟨exUnitC6.archives[1], by decide, by decide⟩, by decide, by decide⟩

/-- Claim C6, amended: with read-failure-skipping enabled, a failed open or
a failed bounded-range read abandons the unit (no batch is forwarded and no
completion is ever reported, so it stays in the In-Progress Sequence
forever), while in full-dump mode a failed archive dump skips only that
archive and the unit is still forwarded with the surviving archives'
filtered points; with skipping disabled, any open, range-read or archive
dump failure signals process-wide exit with status 2. -/
theorem read_failure_policy (allMode : Bool) (fromT untilT : Nat) (u : SourceUnit) :
    (u.openOk = false → whisperWorkerUnit allMode true fromT untilT u = Outcome.abandoned) ∧
    (u.openOk = true → u.fetchOk = false →
      whisperWorkerUnit false true fromT untilT u = Outcome.abandoned) ∧
    (u.openOk = false → whisperWorkerUnit allMode false fromT untilT u = Outcome.fatal 2) ∧
    (u.openOk = true → u.fetchOk = false →
      whisperWorkerUnit false false fromT untilT u = Outcome.fatal 2) ∧
    (u.openOk = true → (∃ a ∈ u.archives, a.readOk = false) →
      whisperWorkerUnit true false fromT untilT u = Outcome.fatal 2) ∧
    (u.openOk = true →
      whisperWorkerUnit true true fromT untilT u
        = Outcome.forwarded
            (((u.archives.reverse.filter (fun a => a.readOk)).map dumpFiltered).flatten)) := by
  refine ⟨?_, ?_, ?_, ?_, ?_, ?_⟩
  · intro h
    simp [whisperWorkerUnit, h]
  · intro h hf
    simp [whisperWorkerUnit, h, hf]
  · intro h
    simp [whisperWorkerUnit, h]
  · intro h hf
    simp [whisperWorkerUnit, h, hf]
  · intro h hex
    have hd : dumpAll false u.archives.reverse = none := by
      rw [dumpAll_strict_none_iff]
      obtain ⟨a, ha, haf⟩ := hex
      exact ⟨a, List.mem_reverse.mpr ha, haf⟩
    simp [whisperWorkerUnit, h, hd]
  · intro h
    simp [whisperWorkerUnit, h, dumpAll_skip]

/-- Witness for the read-failure policy: a unit that fails to open is
abandoned under skipping and fatal without, and exUnitC6 under strict mode
is fatal while under skipping it is forwarded without the failed archive. -/
theorem read_failure_policy_witness :
    whisperWorkerUnit false true 0 0
      { path := "/w/x.wsp", openOk := false, archives := [], fetchOk := true }
      = Outcome.abandoned ∧
    whisperWorkerUnit true false 0 0 exUnitC6 = Outcome.fatal 2 ∧
    whisperWorkerUnit true true 0 0 exUnitC6
      = Outcome.forwarded
          (((exUnitC6.archives.reverse.filter (fun a => a.readOk)).map dumpFiltered).flatten) := by
  refine ⟨(read_failure_policy false 0 0
      { path := "/w/x.wsp", openOk := false, archives := [], fetchOk := true }).1 rfl,
    (read_failure_policy true 0 0 exUnitC6).2.2.2.2.1 rfl
      ⟨exUnitC6.archives[1], by decide, by decide⟩,
    (read_failure_policy true 0 0 exUnitC6).2.2.2.2.2 rfl⟩

/-! ## Load worker (Go func influxWorker) -/

/-- The fixed backoff the load worker sleeps after a failed write before
retrying, in seconds (time.Sleep of 5 seconds in the Go source). -/
def influxRetryBackoffSeconds : Nat := 5

/-- The fate of one batch inside the load worker's write loop: committed
(the write succeeded, so the verbose message is printed, the write timer
updated, and the unit's completion reported on finishedFiles before the
loop breaks), process-wide exit requested with a status code, or still
retrying after the attempts observed so far.  The committed and retrying
outcomes carry the total seconds slept in backoff. -/
inductive WriteOutcome where
  | committed (batch : List Point) (sleptSeconds : Nat)
  | fatal (code : Nat)
  | retrying (sleptSeconds : Nat)
deriving DecidableEq

/-- The load worker's write loop over one batch, driven by the sequence of
write results the destination returns (true is a successful write).  A
failed write with skipInfluxErrors sleeps the fixed backoff and retries the
same batch; without skipInfluxErrors it requests exit 2 (the Go code then
sleeps 100 seconds precisely so that the process exits before anything else
is printed, so the exit is modelled as terminal).  A successful write
reports completion and leaves the loop. -/
def influxWriteLoop (skipInfluxErrors : Bool) (batch : List Point) :
    List Bool → WriteOutcome
  | [] => WriteOutcome.retrying 0
  | ok :: rest =>
    if ok then WriteOutcome.committed batch 0
    else if skipInfluxErrors then
      match influxWriteLoop skipInfluxErrors batch rest with
      | WriteOutcome.committed b n =>
          WriteOutcome.committed b (n + influxRetryBackoffSeconds)
      | WriteOutcome.retrying n =>
          WriteOutcome.retrying (n + influxRetryBackoffSeconds)
      | WriteOutcome.fatal c => WriteOutcome.fatal c
    else WriteOutcome.fatal 2

theorem influxWriteLoop_all_fail (batch : List Point) :
    ∀ res : List Bool, true ∉ res →
    influxWriteLoop true batch res
      = WriteOutcome.retrying (res.length * influxRetryBackoffSeconds) := by
  intro res
  induction res with
  | nil => intro _; simp [influxWriteLoop]
  | cons ok rest ih =>
    intro h
    have hok : ok = false := by
      cases hb : ok
      · rfl
      · exact absurd (hb ▸ List.mem_cons_self true rest) (hb ▸ h)
    have hrest : true ∉ rest := fun hm => h (List.mem_cons_of_mem ok hm)
    simp only [influxWriteLoop, hok, Bool.false_eq_true, if_false, if_true, ih hrest]
    simp only [List.length_cons]
    congr 1
    ring

theorem influxWriteLoop_committed_mem (batch : List Point) :
    ∀ (res : List Bool) (b : List Point) (n : Nat),
    influxWriteLoop true batch res = WriteOutcome.committed b n →
    (b = batch ∧ true ∈ res) := by
  intro res
  induction res with
  | nil =>
    intro b n h
    exact absurd h (by simp [influxWriteLoop])
  | cons ok rest ih =>
    intro b n h
    cases hok : ok with
    | true =>
      rw [hok] at h
      simp only [influxWriteLoop, if_true] at h
      have hb : batch = b := by injection h
      exact ⟨hb.symm, by simp⟩
    | false =>
      rw [hok] at h
      simp only [influxWriteLoop, Bool.false_eq_true, if_false, if_true] at h
      cases hr : influxWriteLoop true batch rest with
      | committed b0 n0 =>
        rw [hr] at h
        have hb : b0 = b := by injection h
        obtain ⟨h1, h2⟩ := ih b0 n0 hr
        exact ⟨hb ▸ h1, List.mem_cons_of_mem _ h2⟩
      | retrying n0 =>
        rw [hr] at h
        exact absurd h (by simp)
      | fatal c =>
        rw [hr] at h
        exact absurd h (by simp)

/-- Claim C7: with write-failure-skipping enabled the load worker never
drops a batch: after any run of failed writes it is still retrying, having
slept the fixed backoff once per failure; once a write succeeds, the same
batch is the one committed, after one fixed backoff per preceding failure,
and completion is reported exactly then (a committed outcome implies a
successful write occurred); with skipping disabled, a failed write requests
process-wide exit with status 2. -/
theorem write_retry_policy (batch : List Point) (n : Nat) :
    (∀ res : List Bool, true ∉ res →
      influxWriteLoop true batch res
        = WriteOutcome.retrying (res.length * influxRetryBackoffSeconds)) ∧
    influxWriteLoop true batch (List.replicate n false ++ [true])
      = WriteOutcome.committed batch (n * influxRetryBackoffSeconds) ∧
    (∀ (res : List Bool) (b : List Point) (m : Nat),
      influxWriteLoop true batch res = WriteOutcome.committed b m →
      (b = batch ∧ true ∈ res)) ∧
    (∀ rest : List Bool, influxWriteLoop false batch (false :: rest)
      = WriteOutcome.fatal 2) := by
  refine ⟨influxWriteLoop_all_fail batch, ?_, influxWriteLoop_committed_mem batch, ?_⟩
  · induction n with
    | zero => simp [influxWriteLoop]
    | succ m ih =>
      have hstep : influxWriteLoop true batch (List.replicate (m + 1) false ++ [true])
          = (match influxWriteLoop true batch (List.replicate m false ++ [true]) with
              | WriteOutcome.committed b k =>
                  WriteOutcome.committed b (k + influxRetryBackoffSeconds)
              | WriteOutcome.retrying k =>
                  WriteOutcome.retrying (k + influxRetryBackoffSeconds)
              | WriteOutcome.fatal c => WriteOutcome.fatal c) := rfl
      rw [hstep, ih]
      show WriteOutcome.committed batch (m * influxRetryBackoffSeconds + influxRetryBackoffSeconds)
          = WriteOutcome.committed batch ((m + 1) * influxRetryBackoffSeconds)
      congr 1
      ring
  · intro rest
    simp [influxWriteLoop]

/-- Witness for the write retry policy: two failures keep the batch
retrying after 10 seconds of backoff, two failures then a success commit
the same batch after 10 seconds of backoff, and a failure without skipping
is fatal with status 2. -/
theorem write_retry_policy_witness :
    influxWriteLoop true [{ Timestamp := 10, Value := 3 }] [false, false]
      = WriteOutcome.retrying 10 ∧
    influxWriteLoop true [{ Timestamp := 10, Value := 3 }] [false, false, true]
      = WriteOutcome.committed [{ Timestamp := 10, Value := 3 }] 10 ∧
    influxWriteLoop false [{ Timestamp := 10, Value := 3 }] [false]
      = WriteOutcome.fatal 2 := by
  have h := write_retry_policy [{ Timestamp := 10, Value := 3 }] 2
  refine ⟨(h.1 [false, false] (by decide)).trans (by decide), ?_, h.2.2.2 []⟩
  have h2 := h.2.1
  rw [show List.replicate 2 false ++ [true] = [false, false, true] from rfl] at h2
  exact h2.trans (by decide)

/-! ## Discovery (Go func process, driven by filepath.Walk) -/

/-- Go strings.Contains: the needle occurs as a contiguous substring of the
haystack (an empty needle matches everything). -/
def strContains (hay needle : String) : Bool :=
  decide (List.IsInfix needle.data hay.data)

/-- Go strings.HasSuffix. -/
def strHasSuffix (hay sfx : String) : Bool :=
  decide (List.IsSuffix sfx.data hay.data)

/-- The mutable discovery state of the Go walk: the one-shot skipUntil
cursor (empty string when inactive) and the count of suppressed files. -/
structure DiscoveryState where
  skipUntil : String
  skipCounter : Nat
deriving DecidableEq

/-- The two synchronous channels a discovered key is emitted on: foundFiles
(the Order Tracker's discovery channel, read by keepOrder) and whisperFiles
(the extract pool's work queue, read by whisperWorker). -/
inductive Chan where
  | found
  | work
deriving DecidableEq

/-- The one-shot cursor-disable check at the top of Go func process: when
the walked path equals the skipUntil cursor, the cursor is cleared (and the
skipped count printed) before any filtering happens. -/
def cursorClear (s : DiscoveryState) (path : String) : DiscoveryState :=
  if path = s.skipUntil then { s with skipUntil := "" } else s

/-- The walk callback (Go func process) on one entry: first the one-shot
skip-cursor disable check, then the walk-error early return, then the .wsp
suffix filter, the exclude filter, the include filter, the skip-cursor
suppression (counting the suppressed entry), and finally the emission of
the key on foundFiles and then whisperFiles.  Returns the new state, the
emissions in program order, and whether the callback returned a non-nil
error (which makes filepath.Walk abort). -/
def processStep (excludeStr includeStr : String) (s : DiscoveryState)
    (path : String) (err : Bool) : DiscoveryState × List (Chan × String) × Bool :=
  if err then (cursorClear s path, [], true)
  else if !(strHasSuffix path ".wsp") then (cursorClear s path, [], false)
  else if decide (excludeStr ≠ "") && strContains path excludeStr then
    (cursorClear s path, [], false)
  else if !(strContains path includeStr) then (cursorClear s path, [], false)
  else if decide ((cursorClear s path).skipUntil ≠ "") then
    ({ cursorClear s path with
        skipCounter := (cursorClear s path).skipCounter + 1 }, [], false)
  else (cursorClear s path, [(Chan.found, path), (Chan.work, path)], false)

/-- filepath.Walk over a list of (path, walk error) entries: each entry is
passed to the callback in traversal order; a non-nil callback return aborts
the walk.  Returns the final state, all emissions in order, and whether the
walk aborted with an error. -/
def walk (excludeStr includeStr : String) :
    DiscoveryState → List (String × Bool) → DiscoveryState × List (Chan × String) × Bool
  | s, [] => (s, [], false)
  | s, (p, e) :: rest =>
    let r := processStep excludeStr includeStr s p e
    if r.2.2 then (r.1, r.2.1, true)
    else
      let w := walk excludeStr includeStr r.1 rest
      (w.1, r.2.1 ++ w.2.1, w.2.2)

/-- The walk-error handling in Go func main: a non-nil error from
filepath.Walk is printed and exit 2 is requested. -/
def mainWalkExit (excludeStr includeStr : String) (s : DiscoveryState)
    (entries : List (String × Bool)) : Option Nat :=
  if (walk excludeStr includeStr s entries).2.2 then some 2 else none

/-- The eligibility guard of one error-free discovery step, as one Boolean. -/
def eligible (excludeStr includeStr : String) (s : DiscoveryState) (path : String) : Bool :=
  strHasSuffix path ".wsp" &&
  !(decide (excludeStr ≠ "") && strContains path excludeStr) &&
  strContains path includeStr &&
  !(decide ((cursorClear s path).skipUntil ≠ ""))

theorem processStep_emissions (excludeStr includeStr : String) (s : DiscoveryState)
    (path : String) :
    (processStep excludeStr includeStr s path false).2.1
      = if eligible excludeStr includeStr s path
        then [(Chan.found, path), (Chan.work, path)] else [] := by
  unfold processStep eligible
  cases ha : strHasSuffix path ".wsp" <;>
    cases hb : (decide (excludeStr ≠ "") && strContains path excludeStr) <;>
      cases hc : strContains path includeStr <;>
        cases hd : decide ((cursorClear s path).skipUntil ≠ "") <;>
          simp [ha, hb, hc, hd]

/-- Claim C5: an entry observed by discovery (with no walk error) is
forwarded to extraction (emitted on the whisperFiles work queue) iff its
key ends with .wsp, does not contain the exclude substring when one is
configured, contains the include substring (an empty include matches
everything), and is not suppressed by an active skip-until cursor (the
cursor key itself disables the cursor before filtering and is therefore
not suppressed). -/
theorem discovery_filter (excludeStr includeStr : String) (s : DiscoveryState)
    (path : String) :
    (Chan.work, path) ∈ (processStep excludeStr includeStr s path false).2.1 ↔
      (strHasSuffix path ".wsp" = true ∧
       (excludeStr ≠ "" → strContains path excludeStr = false) ∧
       strContains path includeStr = true ∧
       (s.skipUntil = "" ∨ path = s.skipUntil)) := by
  rw [processStep_emissions]
  constructor
  · intro hmem
    cases hg : eligible excludeStr includeStr s path with
    | false =>
      rw [hg] at hmem
      exact absurd hmem (by simp)
    | true =>
      have hg2 := hg
      unfold eligible at hg2
      simp only [Bool.and_eq_true, Bool.not_eq_true'] at hg2
      obtain ⟨⟨⟨ha, hb⟩, hc⟩, hd⟩ := hg2
      refine ⟨ha, ?_, hc, ?_⟩
      · intro hne
        cases hcc : strContains path excludeStr with
        | false => rfl
        | true =>
          rw [hcc] at hb
          simp [hne] at hb
      · have hcur : (cursorClear s path).skipUntil = "" := by
          simpa using hd
        unfold cursorClear at hcur
        by_cases hpc : path = s.skipUntil
        · exact Or.inr hpc
        · rw [if_neg hpc] at hcur
          exact Or.inl hcur
  · rintro ⟨ha, hb, hc, hd⟩
    have hg : eligible excludeStr includeStr s path = true := by
      unfold eligible
      simp only [Bool.and_eq_true, Bool.not_eq_true']
      refine ⟨⟨⟨ha, ?_⟩, hc⟩, ?_⟩
      · by_cases hne : excludeStr = ""
        · simp [hne]
        · simp [hne, hb hne]
      · simp only [decide_eq_false_iff_not, ne_eq, Decidable.not_not]
        unfold cursorClear
        rcases hd with h | h
        · by_cases hpc : path = s.skipUntil
          · simp [hpc]
          · rw [if_neg hpc]
            exact h
        · simp [h]
    simp [hg]

/-- Witness for the discovery filter: with an active cursor on another key
the matching .wsp path is suppressed, shown through the iff read right to
left being inapplicable; and with no cursor the path is forwarded. -/
theorem discovery_filter_witness :
    ((Chan.work, "/w/a.wsp") ∈
      (processStep "" "" { skipUntil := "", skipCounter := 0 } "/w/a.wsp" false).2.1 ↔
      (strHasSuffix "/w/a.wsp" ".wsp" = true ∧
       (("" : String) ≠ "" → strContains "/w/a.wsp" "" = false) ∧
       strContains "/w/a.wsp" "" = true ∧
       (("" : String) = "" ∨ "/w/a.wsp" = ""))) ∧
    (Chan.work, "/w/a.wsp") ∈
      (processStep "" "" { skipUntil := "", skipCounter := 0 } "/w/a.wsp" false).2.1 :=
  ⟨discovery_filter "" "" { skipUntil := "", skipCounter := 0 } "/w/a.wsp",
   (discovery_filter "" "" { skipUntil := "", skipCounter := 0 } "/w/a.wsp").mpr
     ⟨by decide, fun h => absurd rfl h, by decide, Or.inl rfl⟩⟩

/-- Every delivery of a key on the whisperFiles work queue is preceded, in
emission order, by a delivery of the same key on the foundFiles discovery
channel.  Both channels are unbuffered (synchronous), so each send
completes only when its receiver has taken the key; list order is delivery
order. -/
def FoundBeforeWork (ems : List (Chan × String)) : Prop :=
  ∀ (j : Nat) (p : String), ems[j]? = some (Chan.work, p) →
    ∃ i : Nat, i < j ∧ ems[i]? = some (Chan.found, p)

theorem fbw_nil : FoundBeforeWork [] := by
  intro j p h
  simp at h

theorem fbw_pair (p : String) : FoundBeforeWork [(Chan.found, p), (Chan.work, p)] := by
  intro j q h
  match j with
  | 0 => simp at h
  | 1 =>
    refine ⟨0, by omega, ?_⟩
    simp only [List.getElem?_cons_succ, List.getElem?_cons_zero, Option.some.injEq] at h
    have : p = q := congrArg Prod.snd h
    simp [this]
  | j + 2 => simp at h

theorem fbw_append {l1 l2 : List (Chan × String)}
    (h1 : FoundBeforeWork l1) (h2 : FoundBeforeWork l2) :
    FoundBeforeWork (l1 ++ l2) := by
  intro j q h
  by_cases hlt : j < l1.length
  · rw [List.getElem?_append, if_pos hlt] at h
    obtain ⟨i, hij, hi⟩ := h1 j q h
    refine ⟨i, hij, ?_⟩
    rw [List.getElem?_append, if_pos (by omega)]
    exact hi
  · rw [List.getElem?_append, if_neg hlt] at h
    obtain ⟨i, hij, hi⟩ := h2 _ q h
    refine ⟨i + l1.length, by omega, ?_⟩
    rw [List.getElem?_append, if_neg (by omega)]
    have he : i + l1.length - l1.length = i := by omega
    rw [he]
    exact hi

theorem processStep_fbw (excludeStr includeStr : String) (s : DiscoveryState)
    (path : String) (err : Bool) :
    FoundBeforeWork (processStep excludeStr includeStr s path err).2.1 := by
  cases err with
  | true =>
    have he : (processStep excludeStr includeStr s path true).2.1 = [] := rfl
    rw [he]
    exact fbw_nil
  | false =>
    rw [processStep_emissions]
    cases hg : eligible excludeStr includeStr s path with
    | true => simpa [hg] using fbw_pair path
    | false => simpa [hg] using fbw_nil

theorem walk_fbw (excludeStr includeStr : String) :
    ∀ (entries : List (String × Bool)) (s : DiscoveryState),
    FoundBeforeWork (walk excludeStr includeStr s entries).2.1 := by
  intro entries
  induction entries with
  | nil =>
    intro s
    simpa [walk] using fbw_nil
  | cons pe rest ih =>
    intro s
    obtain ⟨p, e⟩ := pe
    show FoundBeforeWork (walk excludeStr includeStr s ((p, e) :: rest)).2.1
    rw [walk]
    cases hab : (processStep excludeStr includeStr s p e).2.2 with
    | true =>
      simp only [hab, if_true]
      exact processStep_fbw excludeStr includeStr s p e
    | false =>
      simp only [hab, Bool.false_eq_true, if_false]
      exact fbw_append (processStep_fbw excludeStr includeStr s p e)
        (ih (processStep excludeStr includeStr s p e).1)

/-- Claim C9: over any discovery walk, whenever a key is delivered on the
extract pool's work queue (whisperFiles) at position j of the emission
sequence, the same key was delivered on the Order Tracker's discovery
channel (foundFiles) at an earlier position; since both channels are
unbuffered, a key therefore never reaches the extract pool before the
Order Tracker has received its record. -/
theorem discovery_record_before_work (excludeStr includeStr : String)
    (entries : List (String × Bool)) (s : DiscoveryState) (j : Nat) (p : String)
    (h : ((walk excludeStr includeStr s entries).2.1)[j]? = some (Chan.work, p)) :
    ∃ i : Nat, i < j ∧
      ((walk excludeStr includeStr s entries).2.1)[i]? = some (Chan.found, p) :=
  walk_fbw excludeStr includeStr entries s j p h

/-- Witness for record-before-work: a one-entry walk emits found then work
for the single eligible path. -/
theorem discovery_record_before_work_witness :
    ∃ i : Nat, i < 1 ∧
      ((walk "" "" { skipUntil := "", skipCounter := 0 }
        [("/w/a.wsp", false)]).2.1)[i]? = some (Chan.found, "/w/a.wsp") :=
  discovery_record_before_work "" "" [("/w/a.wsp", false)]
    { skipUntil := "", skipCounter := 0 } 1 "/w/a.wsp" (by decide)

/-! ## Exit handling (Go func keepOrder exit case, Go func main) -/

/-- The exit case of keepOrder's select: on receipt of a status code on the
exit channel, print the head of the in-progress list (the resume cursor)
when the list is non-empty, then call os.Exit with exactly the received
code.  Modelled as the pair of the reported cursor and the exit status. -/
def keepOrderExit (s : List String) (code : Nat) : Option String × Nat :=
  (s.head?, code)

theorem head?_filter (p : String → Bool) :
    ∀ l : List String, (l.filter p).head? = l.find? p := by
  intro l
  induction l with
  | nil => rfl
  | cons a rest ih =>
    cases h : p a <;> simp [List.filter_cons, List.find?, h, ih]

theorem whisperWorkerUnit_fatal_code (allMode skipErr : Bool) (fromT untilT : Nat)
    (u : SourceUnit) (c2 : Nat)
    (hf : whisperWorkerUnit allMode skipErr fromT untilT u = Outcome.fatal c2) :
    c2 = 2 := by
  unfold whisperWorkerUnit at hf
  cases hopen : u.openOk with
  | false =>
    rw [hopen] at hf
    cases hse : skipErr with
    | false =>
      rw [hse] at hf
      simp only [Bool.not_false, if_true, Bool.false_eq_true, if_false] at hf
      exact (Outcome.fatal.inj hf).symm
    | true =>
      rw [hse] at hf
      exact absurd hf (by simp)
  | true =>
    rw [hopen] at hf
    simp only [Bool.not_true, Bool.false_eq_true, if_false] at hf
    cases hall : allMode with
    | true =>
      rw [hall] at hf
      simp only [if_true] at hf
      cases hd : dumpAll skipErr u.archives.reverse with
      | none =>
        rw [hd] at hf
        exact (Outcome.fatal.inj hf).symm
      | some pts =>
        rw [hd] at hf
        exact absurd hf (by simp)
    | false =>
      rw [hall] at hf
      simp only [Bool.false_eq_true, if_false] at hf
      cases hfk : u.fetchOk with
      | true =>
        rw [hfk] at hf
        exact absurd hf (by simp)
      | false =>
        rw [hfk] at hf
        cases hse : skipErr with
        | false =>
          rw [hse] at hf
          simp only [Bool.false_eq_true, if_false] at hf
          exact (Outcome.fatal.inj hf).symm
        | true =>
          rw [hse] at hf
          exact absurd hf (by simp)

theorem influxWriteLoop_fatal_code (sk : Bool) (b : List Point) :
    ∀ (res : List Bool) (c2 : Nat),
    influxWriteLoop sk b res = WriteOutcome.fatal c2 → c2 = 2 := by
  intro res
  induction res with
  | nil =>
    intro c2 hf
    exact absurd hf (by simp [influxWriteLoop])
  | cons ok rest ih =>
    intro c2 hf
    cases hok : ok with
    | true =>
      rw [hok] at hf
      simp only [influxWriteLoop, if_true] at hf
      exact absurd hf (by simp)
    | false =>
      rw [hok] at hf
      simp only [influxWriteLoop, Bool.false_eq_true, if_false] at hf
      cases hsk : sk with
      | false =>
        rw [hsk] at hf
        simp only [Bool.false_eq_true, if_false] at hf
        exact (WriteOutcome.fatal.inj hf).symm
      | true =>
        rw [hsk] at hf
        simp only [if_true] at hf
        cases hr : influxWriteLoop true b rest with
        | committed b0 n0 => rw [hr] at hf; exact absurd hf (by simp)
        | retrying n0 => rw [hr] at hf; exact absurd hf (by simp)
        | fatal c0 =>
          rw [hr] at hf
          have : c0 = c2 := WriteOutcome.fatal.inj hf
          rw [hsk] at ih
          exact this ▸ ih c0 hr

/-- Claim C8: on an exit request the Order Tracker reports the head of the
In-Progress Sequence (when non-empty) as the resume cursor, which for any
discovery-consistent trace is the earliest-recorded key not yet completed,
and terminates with exactly the requested status code; and every fatal
error path of the pipeline (failed open or read in the extract worker,
failed write in the load worker, discovery walk error in main) requests
status 2. -/
theorem exit_reporting (t : List Event) (h : valid t = true) (c : Nat) :
    keepOrderExit (run t) c
      = ((recorded t).find? (fun k => decide (k ∉ completed t)), c) ∧
    (∀ (allMode skipErr : Bool) (fromT untilT : Nat) (u : SourceUnit) (c2 : Nat),
      whisperWorkerUnit allMode skipErr fromT untilT u = Outcome.fatal c2 → c2 = 2) ∧
    (∀ (sk : Bool) (b : List Point) (res : List Bool) (c2 : Nat),
      influxWriteLoop sk b res = WriteOutcome.fatal c2 → c2 = 2) ∧
    (∀ (excludeStr includeStr : String) (s : DiscoveryState)
      (entries : List (String × Bool)) (c2 : Nat),
      mainWalkExit excludeStr includeStr s entries = some c2 → c2 = 2) := by
  refine ⟨?_, whisperWorkerUnit_fatal_code, influxWriteLoop_fatal_code, ?_⟩
  · show ((run t).head?, c) = ((recorded t).find? (fun k => decide (k ∉ completed t)), c)
    rw [run_eq_filter t h, head?_filter]
  · intro excludeStr includeStr s entries c2 hf
    unfold mainWalkExit at hf
    cases hab : (walk excludeStr includeStr s entries).2.2 with
    | false =>
      rw [hab] at hf
      exact absurd hf (by simp)
    | true =>
      rw [hab] at hf
      simp only [if_true] at hf
      exact (Option.some.inj hf).symm

/-- Witness for exit reporting: on the trace record a, record b, complete a
an exit request with status 2 reports resume cursor b and exits 2; the
strict-mode read failure on exUnitC6 and a strict-mode write failure indeed
carry status 2. -/
theorem exit_reporting_witness :
    keepOrderExit (run [Event.record "a", Event.record "b", Event.complete "a"]) 2
      = (some "b", 2) ∧
    (whisperWorkerUnit true false 0 0 exUnitC6 = Outcome.fatal 2 → (2 : Nat) = 2) ∧
    (mainWalkExit "" "" { skipUntil := "", skipCounter := 0 } [("/w/a.wsp", true)]
      = some 2 → (2 : Nat) = 2) := by
  have h := exit_reporting [Event.record "a", Event.record "b", Event.complete "a"]
    (by decide) 2
  exact ⟨h.1.trans (by decide),
    h.2.1 true false 0 0 exUnitC6 2,
    h.2.2.2 "" "" { skipUntil := "", skipCounter := 0 } [("/w/a.wsp", true)] 2⟩

end WhisperToInflux
